import Mathlib

/-!
Shallow embedding of plymouth's freetype label control plugin
(`src/plugins/controls/label-freetype/plugin.c`).

The FreeType face is modelled as a deterministic oracle: `Face.glyph`
gives, per selected size and character, either the rasterized glyph slot
(`FT_Load_Char` succeeds and fills `face->glyph`) or `none` (the load
fails).  Machine integers are modelled as `Int`/`Nat` with the C casts
(`uint32_t`, `unsigned long`) made explicit where they occur.  C `float`
arithmetic in `draw_bitmap` is modelled with exact rationals; at the
inputs the theorems exercise (label alpha 0 or 1, coverage 0 or 255) the
32-bit float computation is exact, so the models coincide there.

Loops of the C code that can fail to terminate (the glyph loops do not
advance the text pointer when a glyph load fails) are modelled with an
explicit fuel parameter; a result of `none` from a fuel-indexed function
at every fuel means the C loop never returns.
-/

set_option maxRecDepth 8000

/-- C's arithmetic right shift by 6 on a two's-complement long
    (floor division by 64), used for FreeType 26.6 fixed-point values. -/
def ftTrunc (x : Int) : Int := Int.fdiv x 64

/-- Conversion of a signed value to C `uint32_t` (reduction mod 2^32). -/
def toU32 (x : Int) : Nat := (x % (2 ^ 32)).toNat

/-- Conversion of a signed value to C `unsigned long` (64-bit; reduction mod 2^64). -/
def toU64 (x : Int) : Nat := (x % (2 ^ 64)).toNat

/-- Reinterpretation of an unsigned 64-bit computation as a signed long
    (gcc two's-complement semantics). -/
def wrap64 (x : Int) : Int :=
  if x % (2 ^ 64) < 2 ^ 63 then x % (2 ^ 64) else x % (2 ^ 64) - 2 ^ 64

/-- One rasterized glyph slot as `FT_Load_Char` leaves it in `face->glyph`:
    advance in 26.6 fixed point, `bitmap_left`/`bitmap_top` bearings, and the
    8-bit coverage bitmap with its pitch. -/
structure Glyph where
  advanceX : Int
  advanceY : Int
  bitmapLeft : Int
  bitmapTop : Int
  bmWidth : Nat
  bmRows : Nat
  bmPitch : Nat
  bmBuffer : List Nat
  deriving DecidableEq

/-- Face-level size metrics (`face->size->metrics`), 26.6 fixed point. -/
structure Metrics where
  ascender : Int
  descender : Int
  height : Int
  deriving DecidableEq

/-- A size selection request made to the backend: `FT_Set_Char_Size`
    (point size at a dpi) or `FT_Set_Pixel_Sizes`. -/
inductive SizeReq where
  | charSize (pt : Nat) (dpi : Nat)
  | pixelSize (px : Nat)
  deriving DecidableEq

/-- The FreeType backend as the plugin consumes it, as a deterministic oracle:
    whether a size request succeeds, and per selected size the face metrics and
    the per-character glyph-load outcome. -/
structure Face where
  sizeOk : SizeReq → Bool
  metrics : SizeReq → Metrics
  glyph : SizeReq → Char → Option Glyph

/-- `ply_rectangle_t`: signed position, unsigned extent. -/
structure Rect where
  x : Int
  y : Int
  width : Nat
  height : Nat
  deriving DecidableEq

/-- `struct _ply_label_plugin_control`.  `display` is `true` when a pixel
    display is attached (a non-null `display` pointer); `text` is `none` when
    the `text` pointer is null; `faceSize` is the size currently selected on
    the face (initially 12pt at 96 dpi from `create_control`). -/
structure Label where
  display : Bool
  area : Rect
  alignment : Nat
  width : Int
  faceSize : SizeReq
  text : Option (List Char)
  red : ℚ
  green : ℚ
  blue : ℚ
  alpha : ℚ
  is_hidden : Bool
  deriving DecidableEq

/-- Alignment constants `PLY_LABEL_ALIGN_LEFT/CENTER/RIGHT`. -/
def alignLeft : Nat := 0

def alignCenter : Nat := 1

def alignRight : Nat := 2

/-- The target pixel buffer: ARGB32 words, row-major, stride = width. -/
structure Buffer where
  width : Nat
  height : Nat
  data : List Nat
  deriving DecidableEq

/-- The `width_of_line` loop, one fuel unit per iteration of the body that
    inspects a character.  On a glyph-load failure the C code does not advance
    the text pointer (`++text` sits inside `if (!error)`), so the same
    character is retried; `none` means the loop has not finished within the
    given fuel. -/
def width_of_line_fuel (gf : Char → Option Glyph) : Nat → List Char → Int → Option Int
  | _, [], w => some w
  | fuel, c :: cs, w =>
    if c = '\n' then some w
    else
      match fuel with
      | 0 => none
      | fuel' + 1 =>
        match gf c with
        | none => width_of_line_fuel gf fuel' (c :: cs) w
        | some gl =>
            width_of_line_fuel gf fuel' cs
              (w + ftTrunc gl.advanceX + (if gl.bitmapLeft < 0 then -gl.bitmapLeft else 0))

/-- Width contribution of one character: the horizontal advance shifted to
    pixels, plus the absolute value of a negative left bearing; a failing
    character contributes nothing. -/
def char_width (gf : Char → Option Glyph) (c : Char) : Int :=
  match gf c with
  | some gl => ftTrunc gl.advanceX + (if gl.bitmapLeft < 0 then -gl.bitmapLeft else 0)
  | none => 0

/-- The characters of the current line: everything before the first newline. -/
def lineChars (cs : List Char) : List Char := cs.takeWhile (fun c => c != '\n')

/-- Sum of the per-character width contributions of a line. -/
def line_width_sum (gf : Char → Option Glyph) (cs : List Char) : Int :=
  ((lineChars cs).map (char_width gf)).sum

/-- Denotation of `width_of_line`: fuel `cs.length` suffices exactly when every
    character before the newline loads (proved below); `none` means the C loop
    never returns. -/
def width_of_line (gf : Char → Option Glyph) (cs : List Char) : Option Int :=
  width_of_line_fuel gf cs.length cs 0

/-- A glyph oracle on which every load fails. -/
def g_none : Char → Option Glyph := fun _ => none

theorem width_of_line_fuel_nil (gf : Char → Option Glyph) (fuel : Nat) (w : Int) :
    width_of_line_fuel gf fuel [] w = some w := by
  cases fuel <;> rfl

theorem lineChars_nil : lineChars [] = [] := rfl

theorem lineChars_cons_of_ne (c : Char) (cs : List Char) (hc : c ≠ '\n') :
    lineChars (c :: cs) = c :: lineChars cs := by
  have hb : (c != '\n') = true := bne_iff_ne.mpr hc
  simp [lineChars, List.takeWhile, hb]

theorem lineChars_cons_newline (cs : List Char) : lineChars ('\n' :: cs) = [] := by
  simp [lineChars, List.takeWhile]

/-- If some character of the line fails to load, the loop never finishes,
    whatever the fuel: the first failing character is retried forever. -/
theorem width_of_line_fuel_fail (gf : Char → Option Glyph) :
    ∀ (fuel : Nat) (cs : List Char) (w : Int),
      (∃ c ∈ lineChars cs, gf c = none) →
      width_of_line_fuel gf fuel cs w = none := by
  intro fuel
  induction fuel with
  | zero =>
    intro cs w h
    match cs with
    | [] => simp [lineChars] at h
    | c :: cs' =>
      by_cases hc : c = '\n'
      · subst hc; simp [lineChars] at h
      · simp [width_of_line_fuel, hc]
  | succ fuel ih =>
    intro cs w h
    match cs with
    | [] => simp [lineChars] at h
    | c :: cs' =>
      by_cases hc : c = '\n'
      · subst hc; simp [lineChars] at h
      · have hline : lineChars (c :: cs') = c :: lineChars cs' := lineChars_cons_of_ne c cs' hc
        rw [hline] at h
        cases hg : gf c with
        | none =>
          simp only [width_of_line_fuel, if_neg hc, hg]
          exact ih (c :: cs') w (by rw [hline]; exact h)
        | some gl =>
          simp only [width_of_line_fuel, if_neg hc, hg]
          apply ih
          rcases h with ⟨d, hd, hdnone⟩
          rcases List.mem_cons.mp hd with rfl | hd'
          · rw [hg] at hdnone; cases hdnone
          · exact ⟨d, hd', hdnone⟩

/-- If every character of the line loads, the loop finishes once the fuel
    covers the line, and returns the accumulated sum of contributions. -/
theorem width_of_line_fuel_success (gf : Char → Option Glyph) :
    ∀ (fuel : Nat) (cs : List Char) (w : Int),
      (∀ c ∈ lineChars cs, (gf c).isSome) →
      (lineChars cs).length ≤ fuel →
      width_of_line_fuel gf fuel cs w = some (w + line_width_sum gf cs) := by
  intro fuel
  induction fuel with
  | zero =>
    intro cs w hok hlen
    match cs with
    | [] => simp [width_of_line_fuel, line_width_sum, lineChars]
    | c :: cs' =>
      by_cases hc : c = '\n'
      · subst hc
        simp [width_of_line_fuel, line_width_sum, lineChars, List.takeWhile]
      · exfalso
        rw [lineChars_cons_of_ne c cs' hc] at hlen
        simp at hlen
  | succ fuel ih =>
    intro cs w hok hlen
    match cs with
    | [] => simp [width_of_line_fuel, line_width_sum, lineChars]
    | c :: cs' =>
      by_cases hc : c = '\n'
      · subst hc
        simp [width_of_line_fuel, line_width_sum, lineChars, List.takeWhile]
      · have hline : lineChars (c :: cs') = c :: lineChars cs' := lineChars_cons_of_ne c cs' hc
        rw [hline] at hok hlen
        have hchead := hok c (List.mem_cons_self c _)
        cases hg : gf c with
        | none => rw [hg] at hchead; cases hchead
        | some gl =>
          simp only [width_of_line_fuel, if_neg hc, hg]
          have htail : ∀ d ∈ lineChars cs', (gf d).isSome := fun d hd =>
            hok d (List.mem_cons_of_mem c hd)
          have hlen' : (lineChars cs').length ≤ fuel := by simp at hlen; omega
          rw [ih cs' _ htail hlen']
          have : line_width_sum gf (c :: cs') = char_width gf c + line_width_sum gf cs' := by
            simp [line_width_sum, hline, char_width, hg]
          rw [this]
          have hcw : char_width gf c
              = ftTrunc gl.advanceX + (if gl.bitmapLeft < 0 then -gl.bitmapLeft else 0) := by
            simp [char_width, hg]
          rw [hcw]; ring_nf

/-- C1 (code_bug): with the glyph for `'a'` failing to load, the
    `width_of_line` loop never returns, for any fuel whatsoever: the failing
    character is retried forever instead of being skipped as the specification
    requires. -/
theorem width_of_line_diverges_on_failing_glyph :
    ∀ (fuel : Nat) (w : Int), width_of_line_fuel g_none fuel ('a' :: []) w = none := by
  intro fuel w
  apply width_of_line_fuel_fail
  exact ⟨'a', by simp [lineChars, List.takeWhile], rfl⟩

/-- The line iteration of `size_control`: per line, take the measured width if
    it beats the running maximum (comparison under a `uint32_t` cast of the
    `FT_Int` width, assignment as `unsigned long`), add one line height
    `(ascender - descender) >> 6` to the running height, then resume after the
    newline found by `strchr` (or stop if there is none).  One fuel unit per
    line; every iteration consumes at least the newline, so fuel `cs.length`
    always suffices (`measure_lines_fuel_irrel` below), and with that fuel
    `none` means a `width_of_line` call never returned. -/
def measure_lines_fuel (gf : Char → Option Glyph) (m : Metrics) :
    Nat → List Char → Nat → Nat → Option (Nat × Nat)
  | _, [], w, h => some (w, h)
  | 0, _ :: _, _, _ => none
  | fuel + 1, c :: cs, w, h =>
    match width_of_line gf (c :: cs) with
    | none => none
    | some wl =>
      let w' := if toU32 wl > w then toU64 wl else w
      let h' := toU64 ((h : Int) + ftTrunc (m.ascender - m.descender))
      match (c :: cs).dropWhile (fun ch => ch != '\n') with
      | [] => some (w', h')
      | _ :: rest => measure_lines_fuel gf m fuel rest w' h'

/-- Denotation of the `size_control` line loop. -/
def measure_lines (gf : Char → Option Glyph) (m : Metrics)
    (cs : List Char) (w h : Nat) : Option (Nat × Nat) :=
  measure_lines_fuel gf m cs.length cs w h

theorem dropWhile_tail_length_le (c : Char) (cs rest : List Char) (d : Char)
    (hdrop : (c :: cs).dropWhile (fun ch => ch != '\n') = d :: rest) :
    rest.length ≤ cs.length := by
  have hle : ((c :: cs).dropWhile (fun ch => ch != '\n')).length ≤ (c :: cs).length :=
    List.Sublist.length_le (List.dropWhile_sublist _)
  rw [hdrop] at hle
  simp at hle
  omega

/-- Any fuel of at least the text length gives the same result: the loop's
    behaviour does not depend on the fuel once it covers the line count. -/
theorem measure_lines_fuel_irrel (gf : Char → Option Glyph) (m : Metrics) :
    ∀ (n₁ : Nat) (cs : List Char) (n₂ : Nat) (w h : Nat),
      cs.length ≤ n₁ → cs.length ≤ n₂ →
      measure_lines_fuel gf m n₁ cs w h = measure_lines_fuel gf m n₂ cs w h := by
  intro n₁
  induction n₁ with
  | zero =>
    intro cs n₂ w h h₁ h₂
    match cs with
    | [] => cases n₂ <;> rfl
    | c :: cs' => simp at h₁
  | succ n ih =>
    intro cs n₂ w h h₁ h₂
    match cs with
    | [] => cases n₂ <;> rfl
    | c :: cs' =>
      match n₂ with
      | 0 => simp at h₂
      | n₂' + 1 =>
        simp only [measure_lines_fuel]
        cases width_of_line gf (c :: cs') with
        | none => rfl
        | some wl =>
          simp only
          cases hdrop : (c :: cs').dropWhile (fun ch => ch != '\n') with
          | nil => rfl
          | cons d rest =>
            have hrest : rest.length ≤ cs'.length := dropWhile_tail_length_le c cs' rest d hdrop
            simp at h₁ h₂
            exact ih rest n₂' _ _ (by omega) (by omega)

/-- The measurement performed by `size_control`: start from a 0×0 area, run
    the line loop (skipped entirely when the text pointer is null or the text
    is empty), then floor the width at `label->width`. -/
def measure_label (gf : Char → Option Glyph) (m : Metrics)
    (text : Option (List Char)) (minW : Int) : Option (Nat × Nat) :=
  match text with
  | none => some (if (0 : Int) < minW then toU64 minW else 0, 0)
  | some cs =>
      (measure_lines gf m cs 0 0).map
        (fun p => (if (p.1 : Int) < minW then toU64 minW else p.1, p.2))

/-- `size_control`: a no-op while hidden; otherwise recompute the area's
    width and height from the current text, face size and requested width. -/
def size_control (face : Face) (s : Label) : Option Label :=
  if s.is_hidden then some s
  else
    (measure_label (face.glyph s.faceSize) (face.metrics s.faceSize) s.text s.width).map
      (fun p => { s with area := { s.area with width := p.1, height := p.2 } })

/-- Concrete metrics used by the witnesses: ascender 64 (one pixel),
    descender 0, line spacing 64. -/
def m₀ : Metrics := { ascender := 64, descender := 0, height := 64 }

/-- A concrete 1×1 fully covered glyph, advance one pixel, no bearing. -/
def gl₀ : Glyph :=
  { advanceX := 64, advanceY := 0, bitmapLeft := 0, bitmapTop := 1,
    bmWidth := 1, bmRows := 1, bmPitch := 1, bmBuffer := [255] }

/-- A concrete face on which every size request succeeds and every character
    rasterizes to `gl₀`. -/
def f₀ : Face :=
  { sizeOk := fun _ => true, metrics := fun _ => m₀, glyph := fun _ _ => some gl₀ }

/-- The size selected by `create_control` (12pt at 96 dpi). -/
def szDefault : SizeReq := SizeReq.charSize 12 96

/-- The measurement performed by `size_control` always finishes when every
    character of the text rasterizes. -/
theorem width_of_line_success (gf : Char → Option Glyph) (cs : List Char)
    (hok : ∀ c ∈ lineChars cs, (gf c).isSome) :
    width_of_line gf cs = some (line_width_sum gf cs) := by
  have hlen : (lineChars cs).length ≤ cs.length := by
    have := List.Sublist.length_le (List.takeWhile_sublist (l := cs) (fun c => c != '\n'))
    simpa [lineChars] using this
  have := width_of_line_fuel_success gf cs.length cs 0 hok hlen
  simpa [width_of_line] using this

theorem lineChars_of_clean (l : List Char) (h : ∀ c ∈ l, c ≠ '\n') :
    lineChars l = l := by
  induction l with
  | nil => rfl
  | cons c cs ih =>
    rw [lineChars_cons_of_ne c cs (h c (List.mem_cons_self c cs))]
    rw [ih (fun d hd => h d (List.mem_cons_of_mem c hd))]

theorem lineChars_append_newline (l r : List Char) (h : ∀ c ∈ l, c ≠ '\n') :
    lineChars (l ++ '\n' :: r) = l := by
  induction l with
  | nil => simp [lineChars_cons_newline]
  | cons c cs ih =>
    rw [List.cons_append, lineChars_cons_of_ne c _ (h c (List.mem_cons_self c cs))]
    rw [ih (fun d hd => h d (List.mem_cons_of_mem c hd))]

theorem dropWhile_of_clean (l : List Char) (h : ∀ c ∈ l, c ≠ '\n') :
    l.dropWhile (fun ch => ch != '\n') = [] := by
  induction l with
  | nil => rfl
  | cons c cs ih =>
    have hb : (c != '\n') = true := bne_iff_ne.mpr (h c (List.mem_cons_self c cs))
    simp only [List.dropWhile, hb]
    exact ih (fun d hd => h d (List.mem_cons_of_mem c hd))

theorem dropWhile_append_newline (l r : List Char) (h : ∀ c ∈ l, c ≠ '\n') :
    (l ++ '\n' :: r).dropWhile (fun ch => ch != '\n') = '\n' :: r := by
  induction l with
  | nil => simp [List.dropWhile]
  | cons c cs ih =>
    have hb : (c != '\n') = true := bne_iff_ne.mpr (h c (List.mem_cons_self c cs))
    rw [List.cons_append]
    simp only [List.dropWhile, hb]
    exact ih (fun d hd => h d (List.mem_cons_of_mem c hd))

/-- Newline-separated concatenation of lines, as the spec's
    "N newline-separated lines" (no trailing newline). -/
def joinLines : List (List Char) → List Char
  | [] => []
  | [l] => l
  | l :: ls => l ++ '\n' :: joinLines ls

/-- The maximum measured width over a list of lines (starting at 0). -/
def max_line_width (gf : Char → Option Glyph) (ls : List (List Char)) : Nat :=
  ls.foldl (fun acc l => max acc (line_width_sum gf l).toNat) 0

theorem ite_gt_eq_max (w x : Nat) : (if x > w then x else w) = max w x := by
  split <;> omega

theorem toU64_small (x : Int) (h0 : 0 ≤ x) (h1 : x < 2 ^ 64) : toU64 x = x.toNat := by
  unfold toU64
  rw [Int.emod_eq_of_lt h0 (by omega)]

theorem floor_width_eq_max (w : Nat) (minW : Int) (hmW : minW < 2 ^ 63) :
    (if (w : Int) < minW then toU64 minW else w) = max w minW.toNat := by
  by_cases h : (w : Int) < minW
  · rw [if_pos h, toU64_small minW (by omega) (by omega)]
    omega
  · rw [if_neg h]
    omega

theorem toU32_small (x : Int) (h0 : 0 ≤ x) (h1 : x < 2 ^ 32) : toU32 x = x.toNat := by
  unfold toU32
  rw [Int.emod_eq_of_lt h0 (by omega)]

/-- Running the `size_control` line loop over newline-joined, newline-free,
    nonempty lines whose characters all rasterize: the width accumulator takes
    the maximum of the per-line sums, and each line adds one line height. -/
theorem measure_lines_fuel_join (gf : Char → Option Glyph) (m : Metrics) (lh : Int)
    (hlh : ftTrunc (m.ascender - m.descender) = lh) (hlh0 : 0 ≤ lh) :
    ∀ (ls : List (List Char)) (fuel : Nat) (w h : Nat),
      (joinLines ls).length ≤ fuel →
      (∀ l ∈ ls, l ≠ [] ∧ ∀ c ∈ l, c ≠ '\n') →
      (∀ l ∈ ls, ∀ c ∈ l, (gf c).isSome) →
      (∀ l ∈ ls, 0 ≤ line_width_sum gf l ∧ line_width_sum gf l < 2 ^ 32) →
      ((h : Int) + ls.length * lh < 2 ^ 64) →
      measure_lines_fuel gf m fuel (joinLines ls) w h
        = some (ls.foldl (fun acc l => max acc (line_width_sum gf l).toNat) w,
                h + ls.length * lh.toNat) := by
  intro ls
  induction ls with
  | nil =>
    intro fuel w h hfuel hclean hok hwb hhb
    simp only [joinLines, List.foldl, List.length_nil, Nat.zero_mul, Nat.add_zero]
    cases fuel <;> rfl
  | cons l ls ih =>
    intro fuel w h hfuel hclean hok hwb hhb
    obtain ⟨hlne, hlclean⟩ := hclean l (List.mem_cons_self l ls)
    obtain ⟨c, l'', rfl⟩ : ∃ c l'', l = c :: l'' := by
      cases l with
      | nil => exact absurd rfl hlne
      | cons c l'' => exact ⟨c, l'', rfl⟩
    have hlok : ∀ d ∈ (c :: l''), (gf d).isSome := hok _ (List.mem_cons_self _ ls)
    have hlwb := hwb _ (List.mem_cons_self _ ls)
    cases ls with
    | nil =>
      -- single line: joinLines [l] = l
      have hjoin : joinLines [c :: l''] = c :: l'' := rfl
      rw [hjoin] at hfuel ⊢
      match fuel, hfuel with
      | fuel' + 1, _ =>
        have hwol : width_of_line gf (c :: l'') = some (line_width_sum gf (c :: l'')) := by
          apply width_of_line_success
          rw [lineChars_of_clean _ hlclean]
          exact hlok
        simp only [measure_lines_fuel, hwol]
        rw [dropWhile_of_clean _ hlclean]
        simp only
        rw [toU32_small _ hlwb.1 hlwb.2, toU64_small _ hlwb.1 (by omega)]
        rw [ite_gt_eq_max, hlh]
        rw [toU64_small ((h : Int) + lh) (by omega) (by simp at hhb; omega)]
        simp only [List.foldl, List.length_cons, List.length_nil]
        congr 2
        omega
    | cons l₂ ls' =>
      have hjoin : joinLines ((c :: l'') :: l₂ :: ls')
          = (c :: l'') ++ '\n' :: joinLines (l₂ :: ls') := rfl
      rw [hjoin] at hfuel ⊢
      match fuel, hfuel with
      | fuel' + 1, hfuel =>
        have hwol : width_of_line gf ((c :: l'') ++ '\n' :: joinLines (l₂ :: ls'))
            = some (line_width_sum gf (c :: l'')) := by
          have h1 := width_of_line_success gf ((c :: l'') ++ '\n' :: joinLines (l₂ :: ls'))
            (by rw [lineChars_append_newline _ _ hlclean]; exact hlok)
          rw [h1]
          congr 1
          unfold line_width_sum
          rw [lineChars_append_newline _ _ hlclean, lineChars_of_clean _ hlclean]
        have hdrop : ((c :: l'') ++ '\n' :: joinLines (l₂ :: ls')).dropWhile
            (fun ch => ch != '\n') = '\n' :: joinLines (l₂ :: ls') :=
          dropWhile_append_newline _ _ hlclean
        have hcons : (c :: l'') ++ '\n' :: joinLines (l₂ :: ls')
            = c :: (l'' ++ '\n' :: joinLines (l₂ :: ls')) := rfl
        rw [hcons] at hwol hdrop ⊢
        simp only [measure_lines_fuel, hwol, hdrop]
        rw [toU32_small _ hlwb.1 hlwb.2, toU64_small _ hlwb.1 (by omega)]
        rw [ite_gt_eq_max, hlh]
        have hhb' : (h : Int) + (l₂ :: ls').length * lh + lh < 2 ^ 64 := by
          simp only [List.length_cons] at hhb ⊢
          push_cast at hhb ⊢
          nlinarith
        have hjpos : 0 ≤ ((l₂ :: ls').length : Int) * lh :=
          mul_nonneg (by positivity) hlh0
        rw [toU64_small ((h : Int) + lh) (by omega) (by omega)]
        have hcast : (((h : Int) + lh).toNat) = h + lh.toNat := by omega
        rw [hcast]
        have hrec := ih fuel' (max w (line_width_sum gf (c :: l'')).toNat) (h + lh.toNat)
          (by
            rw [hcons] at hfuel
            simp only [List.length_cons, List.length_append] at hfuel ⊢
            omega)
          (fun l hl => hclean l (List.mem_cons_of_mem _ hl))
          (fun l hl => hok l (List.mem_cons_of_mem _ hl))
          (fun l hl => hwb l (List.mem_cons_of_mem _ hl))
          (by push_cast at hhb' ⊢; omega)
        rw [hrec]
        simp only [List.foldl, List.length_cons]
        congr 2
        ring

/-- C3 (counterexample): with requested minimum width 10, `size_control` on
    the empty text yields a 10×0 box, not the 0×0 box the claim states for
    every minimum width: the final width floor applies to empty text too. -/
theorem measure_label_empty_not_zero_when_min_width_positive :
    measure_label (f₀.glyph szDefault) m₀ (some []) 10 = some (10, 0) ∧
    some ((10 : Nat), (0 : Nat)) ≠ some ((0 : Nat), (0 : Nat)) := by
  constructor
  · decide
  · decide

/-- C3 (amended): `measure_label` of the empty text yields width
    `max(min_width, 0)` and height 0 (a 0×0 box only when the requested
    minimum width is at most 0); for newline-joined, newline-free, nonempty
    lines whose characters all rasterize (per-line widths fitting `uint32`,
    nonnegative line height, no height overflow), it yields height
    `N × line-height` and width `max(maximum per-line width, min_width)`. -/
theorem measure_label_empty_and_multiline (gf : Char → Option Glyph) (m : Metrics)
    (minW : Int) (ls : List (List Char)) (lh : Int)
    (hmW : minW < 2 ^ 63)
    (hclean : ∀ l ∈ ls, l ≠ [] ∧ ∀ c ∈ l, c ≠ '\n')
    (hok : ∀ l ∈ ls, ∀ c ∈ l, (gf c).isSome)
    (hwb : ∀ l ∈ ls, 0 ≤ line_width_sum gf l ∧ line_width_sum gf l < 2 ^ 32)
    (hlh : ftTrunc (m.ascender - m.descender) = lh)
    (hlh0 : 0 ≤ lh)
    (hhb : (ls.length : Int) * lh < 2 ^ 64) :
    measure_label gf m (some []) minW = some (minW.toNat, 0) ∧
    measure_label gf m (some (joinLines ls)) minW
      = some (max (max_line_width gf ls) minW.toNat, ls.length * lh.toNat) := by
  constructor
  · have h0 : measure_lines gf m [] 0 0 = some (0, 0) := rfl
    simp only [measure_label, h0, Option.map_some']
    rw [floor_width_eq_max 0 minW hmW]
    simp
  · simp only [measure_label]
    unfold measure_lines
    rw [measure_lines_fuel_join gf m lh hlh hlh0 ls (joinLines ls).length 0 0
      (le_refl _) hclean hok hwb (by simpa using hhb)]
    simp only [Option.map_some', Nat.zero_add]
    rw [floor_width_eq_max _ minW hmW]
    rfl

/-- C3 (witness): the amended theorem evaluated on two one-character lines
    with unconstrained width. -/
theorem measure_label_empty_and_multiline_witness :
    (∀ l ∈ [['a'], ['b']], ∀ c ∈ l, ((f₀.glyph szDefault) c).isSome) ∧
    measure_label (f₀.glyph szDefault) m₀ (some (joinLines [['a'], ['b']])) (-1)
      = some (max (max_line_width (f₀.glyph szDefault) [['a'], ['b']]) ((-1 : Int)).toNat,
              ([['a'], ['b']] : List (List Char)).length * ((1 : Int)).toNat) :=
  ⟨by decide,
   (measure_label_empty_and_multiline (f₀.glyph szDefault) m₀ (-1) [['a'], ['b']] 1
      (by decide) (by decide) (by decide) (by decide) (by decide) (by decide)
      (by decide)).2⟩

theorem char_width_nonneg (gf : Char → Option Glyph) (c : Char)
    (h : ∃ gl, gf c = some gl ∧ 0 ≤ gl.advanceX) : 0 ≤ char_width gf c := by
  obtain ⟨gl, hgl, hadv⟩ := h
  simp only [char_width, hgl]
  have h1 : 0 ≤ ftTrunc gl.advanceX := Int.fdiv_nonneg hadv (by norm_num)
  have h2 : 0 ≤ (if gl.bitmapLeft < 0 then -gl.bitmapLeft else 0) := by
    split <;> omega
  omega

/-- C8 (counterexample): when a character of the line fails to load, the
    `width_of_line` loop never returns at all, so its result is not the
    claimed sum with the failing character contributing zero. -/
theorem width_of_line_no_result_with_failing_char :
    width_of_line g_none ['a'] ≠ some (line_width_sum g_none ['a']) := by decide

/-- C8 (amended): for newline-free text all of whose characters load with
    nonnegative horizontal advance, `width_of_line` returns the sum of the
    per-character contributions (advance shifted to pixels, plus the absolute
    value of a negative left bearing), and the result never decreases as
    characters are appended. -/
theorem width_of_line_sum_and_monotone (gf : Char → Option Glyph) (cs cs' : List Char)
    (hnl : ∀ c ∈ cs, c ≠ '\n') (hnl' : ∀ c ∈ cs', c ≠ '\n')
    (hok : ∀ c ∈ cs ++ cs', ∃ gl, gf c = some gl ∧ 0 ≤ gl.advanceX) :
    width_of_line gf cs = some (line_width_sum gf cs) ∧
    width_of_line gf (cs ++ cs') = some (line_width_sum gf (cs ++ cs')) ∧
    line_width_sum gf cs ≤ line_width_sum gf (cs ++ cs') := by
  have hcat : ∀ c ∈ cs ++ cs', c ≠ '\n' := by
    intro c hc
    rcases List.mem_append.mp hc with h | h
    · exact hnl c h
    · exact hnl' c h
  have hokcs : ∀ c ∈ cs, (gf c).isSome := by
    intro c hc
    obtain ⟨gl, hgl, -⟩ := hok c (List.mem_append.mpr (Or.inl hc))
    simp [hgl]
  have hokcat : ∀ c ∈ cs ++ cs', (gf c).isSome := by
    intro c hc
    obtain ⟨gl, hgl, -⟩ := hok c hc
    simp [hgl]
  refine ⟨?_, ?_, ?_⟩
  · exact width_of_line_success gf cs (by rw [lineChars_of_clean _ hnl]; exact hokcs)
  · exact width_of_line_success gf (cs ++ cs')
      (by rw [lineChars_of_clean _ hcat]; exact hokcat)
  · unfold line_width_sum
    rw [lineChars_of_clean _ hnl, lineChars_of_clean _ hcat]
    rw [List.map_append, List.sum_append]
    have : 0 ≤ (cs'.map (char_width gf)).sum := by
      apply List.sum_nonneg
      intro x hx
      obtain ⟨c, hc, rfl⟩ := List.mem_map.mp hx
      exact char_width_nonneg gf c (hok c (List.mem_append.mpr (Or.inr hc)))
    omega

/-- C8 (witness): the amended theorem evaluated on the text "a" extended by
    "b" under the concrete face. -/
theorem width_of_line_sum_and_monotone_witness :
    (∀ c ∈ (['a'] ++ ['b'] : List Char),
        ∃ gl, (f₀.glyph szDefault) c = some gl ∧ 0 ≤ gl.advanceX) ∧
    width_of_line (f₀.glyph szDefault) (['a'] ++ ['b'])
      = some (line_width_sum (f₀.glyph szDefault) (['a'] ++ ['b'])) ∧
    line_width_sum (f₀.glyph szDefault) ['a']
      ≤ line_width_sum (f₀.glyph szDefault) (['a'] ++ ['b']) :=
  have hok : ∀ c ∈ (['a'] ++ ['b'] : List Char),
      ∃ gl, (f₀.glyph szDefault) c = some gl ∧ 0 ≤ gl.advanceX :=
    fun c _ => ⟨gl₀, rfl, by decide⟩
  have h := width_of_line_sum_and_monotone (f₀.glyph szDefault) ['a'] ['b']
    (by decide) (by decide) hok
  ⟨hok, h.2.1, h.2.2⟩

/-- `trigger_redraw`: snapshot the current area, bail out when hidden or
    detached, optionally recompute the size, then request a repaint of the
    snapshot (the pre-recomputation area).  The second component is the
    rectangle passed to `ply_pixel_display_draw_area` (`none` when no request
    is made); an overall `none` means `size_control` never returned. -/
def trigger_redraw (face : Face) (s : Label) (adjust_size : Bool) :
    Option (Label × Option Rect) :=
  let dirty := s.area
  if s.is_hidden = true ∨ s.display = false then some (s, none)
  else
    match (if adjust_size then size_control face s else some s) with
    | none => none
    | some s' => some (s', some dirty)

/-- `set_text_for_control`.  The guard is C pointer inequality: the label owns
    its `strdup`ed copy, so the caller's pointer can only equal the stored one
    when both are null.  With a stored text present and a null argument the
    code reaches `strdup (NULL)`, which dereferences null: modelled as `none`
    (undefined behaviour). -/
def set_text_for_control (face : Face) (s : Label) (t : Option (List Char)) :
    Option (Label × Option Rect) :=
  match s.text, t with
  | none, none => some (s, none)
  | _, none => none
  | _, some str => trigger_redraw face { s with text := some str } true

def set_alignment_for_control (face : Face) (s : Label) (a : Nat) :
    Option (Label × Option Rect) :=
  if s.alignment ≠ a then trigger_redraw face { s with alignment := a } true
  else some (s, none)

def set_width_for_control (face : Face) (s : Label) (w : Int) :
    Option (Label × Option Rect) :=
  if s.width ≠ w then trigger_redraw face { s with width := w } true
  else some (s, none)

/-- Suffix of the string starting at its last space (`strrchr (fontdesc, ' ')`). -/
def last_space_suffix : List Char → Option (List Char)
  | [] => none
  | c :: cs =>
    match last_space_suffix cs with
    | some r => some r
    | none => if c = ' ' then some (c :: cs) else none

/-- C `isspace` characters. -/
def isSpaceC (c : Char) : Bool :=
  c == ' ' || c == '\t' || c == '\n' || c == '\r' || c == '\x0b' || c == '\x0c'

def take_digits : List Char → Nat → Nat × List Char
  | c :: cs, acc =>
      if c.isDigit then take_digits cs (acc * 10 + (c.toNat - 48)) else (acc, c :: cs)
  | [], acc => (acc, [])

/-- Modelled from libc: `strtoul (s, &end, 10)`.  Skips `isspace` characters,
    accepts an optional sign, then decimal digits; returns the value, the rest
    of the string after the digits (`end`), and whether any digit was consumed
    (`end != s`; with no digits the value is 0 and `end` is reset to the
    start).  Values beyond `ULONG_MAX` saturate in C; the inputs exercised
    here are small, so saturation is not modelled. -/
def strtoul10 (s : List Char) : Nat × List Char × Bool :=
  let t := s.dropWhile (fun c => isSpaceC c)
  match t with
  | '-' :: rest =>
    let p := take_digits rest 0
    if p.2 = rest then (0, s, false) else (toU64 (-(p.1 : Int)), p.2, true)
  | '+' :: rest =>
    let p := take_digits rest 0
    if p.2 = rest then (0, s, false) else (p.1, p.2, true)
  | _ =>
    let p := take_digits t 0
    if p.2 = t then (0, s, false) else (p.1, p.2, true)

/-- The `set_font_for_control` parse: take the suffix at the last space; parse
    an unsigned integer from it; no digits (or no space at all) means the
    default size 25; a remainder of exactly "px" means pixel size. -/
def parse_font_size (fontdesc : List Char) : Nat × Bool :=
  match last_space_suffix fontdesc with
  | none => (25, false)
  | some size_str =>
    let r := strtoul10 size_str
    if r.2.2 = false then (25, false)
    else if r.2.1 = ['p', 'x'] then (r.1, true)
    else (r.1, false)

/-- The size request `set_font_for_control` makes to the backend:
    `FT_Set_Pixel_Sizes (face, 0, size)` for a "px" suffix, otherwise
    `FT_Set_Char_Size (face, size << 6, 0, 72, 0)` (points at 72 dpi). -/
def font_size_request (fontdesc : List Char) : SizeReq :=
  let p := parse_font_size fontdesc
  if p.2 then SizeReq.pixelSize p.1 else SizeReq.charSize p.1 72

/-- `set_font_for_control`: apply the parsed size request to the face (errors
    ignored, keeping the current size), then always `trigger_redraw` with size
    adjustment. -/
def set_font_for_control (face : Face) (s : Label) (fontdesc : List Char) :
    Option (Label × Option Rect) :=
  let req := font_size_request fontdesc
  let s' := if face.sizeOk req then { s with faceSize := req } else s
  trigger_redraw face s' true

/-- `set_color_for_control`: update the four channels unconditionally, then
    `trigger_redraw` without size adjustment. -/
def set_color_for_control (face : Face) (s : Label) (r g b a : ℚ) :
    Option (Label × Option Rect) :=
  trigger_redraw face { s with red := r, green := g, blue := b, alpha := a } false

/-- `show_control`: snapshot the old area, attach the display, move, unhide,
    recompute the size, then request a repaint of the snapshot — the area the
    label had before the call.  (The C function then returns true.) -/
def show_control (face : Face) (s : Label) (d : Bool) (x y : Int) :
    Option (Label × Option Rect) :=
  (size_control face
      { s with display := d, area := { s.area with x := x, y := y }, is_hidden := false }).map
    (fun s₂ =>
      ({ s₂ with is_hidden := false },
        if s₂.is_hidden = false ∧ s₂.display = true then some s.area else none))

/-- `hide_control`: mark hidden, request a repaint of the current area on the
    old display if attached, then detach. -/
def hide_control (s : Label) : Label × Option Rect :=
  let s₁ := { s with is_hidden := true }
  let req := if s₁.display = true then some s₁.area else none
  ({ s₁ with display := false }, req)

def is_control_hidden (s : Label) : Bool := s.is_hidden

def get_width_of_control (s : Label) : Nat := s.area.width

def get_height_of_control (s : Label) : Nat := s.area.height

/-- The cached box dimensions agree with a fresh measurement from the current
    text, face size and requested width. -/
def box_matches (face : Face) (s : Label) : Prop :=
  measure_label (face.glyph s.faceSize) (face.metrics s.faceSize) s.text s.width
    = some (s.area.width, s.area.height)

theorem size_control_box_matches (face : Face) (s s' : Label)
    (hvis : s.is_hidden = false) (h : size_control face s = some s') :
    box_matches face s' ∧ s'.is_hidden = false ∧ s'.display = s.display
      ∧ s'.text = s.text ∧ s'.faceSize = s.faceSize ∧ s'.width = s.width
      ∧ s'.alignment = s.alignment ∧ s'.red = s.red ∧ s'.green = s.green
      ∧ s'.blue = s.blue ∧ s'.alpha = s.alpha
      ∧ s'.area.x = s.area.x ∧ s'.area.y = s.area.y := by
  unfold size_control at h
  rw [hvis] at h
  simp only [Bool.false_eq_true, if_false] at h
  cases hm : measure_label (face.glyph s.faceSize) (face.metrics s.faceSize) s.text s.width with
  | none => rw [hm] at h; cases h
  | some p =>
    rw [hm] at h
    simp only [Option.map_some'] at h
    obtain rfl := (Option.some_inj.mp h).symm
    refine ⟨?_, rfl, rfl, rfl, rfl, rfl, rfl, rfl, rfl, rfl, rfl, rfl, rfl⟩
    unfold box_matches
    simpa using hm

theorem trigger_redraw_guard_spec (face : Face) (s : Label) (adjust : Bool)
    (out : Label × Option Rect)
    (hguard : s.is_hidden = true ∨ s.display = false)
    (h : trigger_redraw face s adjust = some out) : out = (s, none) := by
  unfold trigger_redraw at h
  rw [if_pos hguard] at h
  exact (Option.some_inj.mp h).symm

theorem trigger_redraw_adjust_spec (face : Face) (s : Label) (out : Label × Option Rect)
    (hvis : s.is_hidden = false) (hdisp : s.display = true)
    (h : trigger_redraw face s true = some out) :
    out.2 = some s.area ∧ box_matches face out.1
      ∧ out.1.is_hidden = false ∧ out.1.display = true := by
  unfold trigger_redraw at h
  rw [if_neg (by simp [hvis, hdisp])] at h
  rw [if_pos rfl] at h
  cases hm : size_control face s with
  | none => rw [hm] at h; cases h
  | some s' =>
    rw [hm] at h
    obtain rfl := (Option.some_inj.mp h).symm
    obtain ⟨hbox, hhid, hdisp', -⟩ := size_control_box_matches face s s' hvis hm
    exact ⟨rfl, hbox, hhid, by rw [hdisp']; exact hdisp⟩

theorem trigger_redraw_noadjust_spec (face : Face) (s : Label) (out : Label × Option Rect)
    (hvis : s.is_hidden = false) (hdisp : s.display = true)
    (h : trigger_redraw face s false = some out) : out = (s, some s.area) := by
  unfold trigger_redraw at h
  rw [if_neg (by simp [hvis, hdisp])] at h
  rw [if_neg Bool.false_ne_true] at h
  exact (Option.some_inj.mp h).symm

/-- C4 (amended): whenever `show_control` returns, the repaint it requests is
    exactly the box the label had before the call — the old position and old
    size — when a display is attached (and no request is made with a null
    display); the newly computed box is not what is repainted, although the
    new position is recorded in the label. -/
theorem show_control_repaint_covers_previous_box (face : Face) (s : Label)
    (d : Bool) (x y : Int) (out : Label × Option Rect)
    (h : show_control face s d x y = some out) :
    out.2 = (if d then some s.area else none)
      ∧ out.1.area.x = x ∧ out.1.area.y = y := by
  unfold show_control at h
  cases hm : size_control face
      { s with display := d, area := { s.area with x := x, y := y }, is_hidden := false } with
  | none => rw [hm] at h; cases h
  | some s₂ =>
    rw [hm] at h
    simp only [Option.map_some'] at h
    obtain rfl := (Option.some_inj.mp h).symm
    obtain ⟨-, hhid, hdisp, -, -, -, -, -, -, -, -, hax, hay⟩ :=
      size_control_box_matches face _ s₂ rfl hm
    refine ⟨?_, hax, hay⟩
    show (if s₂.is_hidden = false ∧ s₂.display = true then some s.area else none) = _
    rw [hhid, hdisp]
    show (if false = false ∧ d = true then some s.area else none) = _
    cases d <;> simp

/-- The concrete label used to exhibit C4: previously shown at the origin with
    a stale 5×7 box, about to be shown at (100, 200). -/
def sC4 : Label :=
  { display := false, area := { x := 0, y := 0, width := 5, height := 7 },
    alignment := alignLeft, width := -1, faceSize := szDefault,
    text := some ['a'], red := 1, green := 1, blue := 1, alpha := 1,
    is_hidden := true }

/-- The label state `show_control f₀ sC4 true 100 200` produces. -/
def sC4shown : Label :=
  { sC4 with display := true, is_hidden := false,
             area := { x := 100, y := 200, width := 1, height := 1 } }

/-- C4 (counterexample): showing the label at (100, 200) computes the new box
    (100, 200, 1, 1) but requests a repaint of the old box (0, 0, 5, 7): the
    damage request does not cover the newly computed bounding box. -/
theorem show_control_repaints_old_box_cex :
    show_control f₀ sC4 true 100 200
      = some (sC4shown, some { x := 0, y := 0, width := 5, height := 7 }) ∧
    some ({ x := 0, y := 0, width := 5, height := 7 } : Rect) ≠ some sC4shown.area := by
  constructor
  · decide
  · decide

/-- C4 (witness): the amended theorem evaluated on the concrete show call. -/
theorem show_control_repaint_covers_previous_box_witness :
    show_control f₀ sC4 true 100 200 = some (sC4shown, some sC4.area) ∧
    (((sC4shown, some sC4.area) : Label × Option Rect).2
        = (if true then some sC4.area else none)
      ∧ ((sC4shown, some sC4.area) : Label × Option Rect).1.area.x = 100
      ∧ ((sC4shown, some sC4.area) : Label × Option Rect).1.area.y = 200) :=
  have hrun : show_control f₀ sC4 true 100 200 = some (sC4shown, some sC4.area) := by decide
  ⟨hrun, show_control_repaint_covers_previous_box f₀ sC4 true 100 200 _ hrun⟩

/-- The concrete hidden label used to exhibit C7: hidden, display attached,
    stale 5×5 box, no text. -/
def sC7 : Label :=
  { display := true, area := { x := 0, y := 0, width := 5, height := 5 },
    alignment := alignLeft, width := -1, faceSize := szDefault,
    text := none, red := 1, green := 1, blue := 1, alpha := 1,
    is_hidden := true }

/-- C7 (counterexample): on a hidden label, `set_font` parses and applies the
    size, but `trigger_redraw` bails out before recomputing the box or
    requesting a repaint: the stale 5×5 box stays although a fresh measurement
    gives 0×0, and no repaint is requested. -/
theorem set_font_hidden_label_requests_no_repaint :
    set_font_for_control f₀ sC7 ("Sans 14".toList)
      = some ({ sC7 with faceSize := SizeReq.charSize 14 72 }, none) ∧
    measure_label (f₀.glyph (SizeReq.charSize 14 72)) (f₀.metrics (SizeReq.charSize 14 72))
        sC7.text sC7.width ≠ some (sC7.area.width, sC7.area.height) := by
  constructor
  · decide
  · decide

/-- C7 (amended): `set_font("Sans 14")` requests point size 14 at 72 dpi,
    `set_font("Sans 14px")` pixel size 14, and `set_font("Sans")` and
    `set_font("Sans bogus")` the default size 25; and for a *visible* label
    with an attached display, every `set_font` call — regardless of parse or
    backend failure — recomputes the bounding box and requests a repaint.
    (On a hidden or detached label neither happens.) -/
theorem set_font_parse_and_visible_redraw :
    font_size_request ("Sans 14".toList) = SizeReq.charSize 14 72 ∧
    font_size_request ("Sans 14px".toList) = SizeReq.pixelSize 14 ∧
    font_size_request ("Sans".toList) = SizeReq.charSize 25 72 ∧
    font_size_request ("Sans bogus".toList) = SizeReq.charSize 25 72 ∧
    ∀ (face : Face) (s : Label) (fontdesc : List Char) (out : Label × Option Rect),
      s.is_hidden = false → s.display = true →
      set_font_for_control face s fontdesc = some out →
      out.2.isSome ∧ box_matches face out.1 := by
  refine ⟨by decide, by decide, by decide, by decide, ?_⟩
  intro face s fontdesc out hvis hdisp h
  simp only [set_font_for_control] at h
  cases hsz : face.sizeOk (font_size_request fontdesc) with
  | true =>
    rw [hsz] at h
    rw [if_pos rfl] at h
    obtain ⟨hreq, hbox, -, -⟩ :=
      trigger_redraw_adjust_spec face { s with faceSize := font_size_request fontdesc }
        out hvis hdisp h
    exact ⟨by rw [hreq]; rfl, hbox⟩
  | false =>
    rw [hsz] at h
    rw [if_neg Bool.false_ne_true] at h
    obtain ⟨hreq, hbox, -, -⟩ := trigger_redraw_adjust_spec face s out hvis hdisp h
    exact ⟨by rw [hreq]; rfl, hbox⟩

/-- The concrete visible label used for the C7 witness. -/
def sC7v : Label := { sC7 with is_hidden := false }

/-- C7 (witness): the amended theorem's universal part evaluated at a
    concrete visible set_font call (which also exercises the parse). -/
theorem set_font_parse_and_visible_redraw_witness :
    set_font_for_control f₀ sC7v ("Sans 14".toList)
      = some ({ sC7v with faceSize := SizeReq.charSize 14 72,
                          area := { sC7v.area with width := 0, height := 0 } },
              some sC7v.area) ∧
    (some sC7v.area : Option Rect).isSome ∧
    box_matches f₀ { sC7v with faceSize := SizeReq.charSize 14 72,
                               area := { sC7v.area with width := 0, height := 0 } } :=
  have hrun : set_font_for_control f₀ sC7v ("Sans 14".toList)
      = some ({ sC7v with faceSize := SizeReq.charSize 14 72,
                          area := { sC7v.area with width := 0, height := 0 } },
              some sC7v.area) := by decide
  have h := (set_font_parse_and_visible_redraw).2.2.2.2 f₀ sC7v ("Sans 14".toList)
    ({ sC7v with faceSize := SizeReq.charSize 14 72,
                 area := { sC7v.area with width := 0, height := 0 } }, some sC7v.area)
    rfl rfl hrun
  ⟨hrun, h.1, h.2⟩

/-- The concrete visible label used to exhibit C10: its text is present. -/
def sC10 : Label :=
  { display := true, area := { x := 0, y := 0, width := 0, height := 0 },
    alignment := alignLeft, width := -1, faceSize := szDefault,
    text := some ['a'], red := 1, green := 1, blue := 1, alpha := 1,
    is_hidden := false }

/-- C10 (counterexample): `set_text` with a null text on a label whose text is
    present passes the pointer-inequality guard and reaches `strdup (NULL)`:
    undefined behaviour (a null dereference), not a safe operation. -/
theorem set_text_null_crashes_when_text_present :
    set_text_for_control f₀ sC10 none = none := by decide

/-- C10 (amended): `set_text` with an absent text is safe only when the
    label's own text is already absent: then the pointer-equality guard makes
    the call a no-op.  With a present text it is undefined behaviour. -/
theorem set_text_null_safe_when_text_absent (face : Face) (s : Label)
    (h : s.text = none) : set_text_for_control face s none = some (s, none) := by
  unfold set_text_for_control
  rw [h]

/-- C10 (witness): the amended theorem evaluated on a label with absent
    text. -/
theorem set_text_null_safe_when_text_absent_witness :
    sC7.text = none ∧ set_text_for_control f₀ sC7 none = some (sC7, none) :=
  ⟨rfl, set_text_null_safe_when_text_absent f₀ sC7 rfl⟩

theorem show_control_box_matches (face : Face) (s : Label) (d : Bool) (x y : Int)
    (out : Label × Option Rect) (h : show_control face s d x y = some out) :
    box_matches face out.1 := by
  unfold show_control at h
  cases hm : size_control face
      { s with display := d, area := { s.area with x := x, y := y }, is_hidden := false } with
  | none => rw [hm] at h; cases h
  | some s₂ =>
    rw [hm] at h
    simp only [Option.map_some'] at h
    obtain rfl := (Option.some_inj.mp h).symm
    obtain ⟨hbox, -⟩ := size_control_box_matches face _ s₂ rfl hm
    exact hbox

/-- The public operations of the control, as invoked by the external display
    layer.  `draw_control` writes only to the pixel buffer it is given and
    never mutates the label, so it appears here without its arguments. -/
inductive LabelOp where
  | showOp (d : Bool) (x y : Int)
  | hideOp
  | setTextOp (t : Option (List Char))
  | setAlignmentOp (a : Nat)
  | setWidthOp (w : Int)
  | setFontOp (fontdesc : List Char)
  | setColorOp (r g b a : ℚ)
  | drawOp

/-- The label state after one operation (`none`: the operation crashed or
    never returned). -/
def apply_op (face : Face) (op : LabelOp) (s : Label) : Option Label :=
  match op with
  | .showOp d x y => (show_control face s d x y).map Prod.fst
  | .hideOp => some (hide_control s).fst
  | .setTextOp t => (set_text_for_control face s t).map Prod.fst
  | .setAlignmentOp a => (set_alignment_for_control face s a).map Prod.fst
  | .setWidthOp w => (set_width_for_control face s w).map Prod.fst
  | .setFontOp fontdesc => (set_font_for_control face s fontdesc).map Prod.fst
  | .setColorOp r g b a => (set_color_for_control face s r g b a).map Prod.fst
  | .drawOp => some s

/-- C9's invariant, amended: a visible label with an *attached display* has a
    bounding box that matches a fresh measurement from its current text, face
    size and requested width. -/
def size_invariant (face : Face) (s : Label) : Prop :=
  s.is_hidden = false → s.display = true → box_matches face s

theorem trigger_redraw_adjust_invariant (face : Face) (s : Label)
    (out : Label × Option Rect) (h : trigger_redraw face s true = some out) :
    size_invariant face out.1 := by
  by_cases hguard : s.is_hidden = true ∨ s.display = false
  · obtain rfl := trigger_redraw_guard_spec face s true out hguard h
    intro hv hd
    rcases hguard with h1 | h1
    · rw [hv] at h1; cases h1
    · rw [hd] at h1; cases h1
  · have hvis : s.is_hidden = false := by
      cases hh : s.is_hidden
      · rfl
      · exact absurd (Or.inl hh) hguard
    have hdisp : s.display = true := by
      cases hh : s.display
      · exact absurd (Or.inr hh) hguard
      · rfl
    obtain ⟨-, hbox, -, -⟩ := trigger_redraw_adjust_spec face s out hvis hdisp h
    intro _ _
    exact hbox

theorem trigger_redraw_noadjust_state (face : Face) (s : Label)
    (out : Label × Option Rect) (h : trigger_redraw face s false = some out) :
    out.1 = s := by
  unfold trigger_redraw at h
  by_cases hguard : s.is_hidden = true ∨ s.display = false
  · rw [if_pos hguard] at h
    obtain rfl := (Option.some_inj.mp h).symm
    rfl
  · rw [if_neg hguard] at h
    rw [if_neg Bool.false_ne_true] at h
    obtain rfl := (Option.some_inj.mp h).symm
    rfl

/-- C9 (amended): the invariant "whenever the label is visible *and a display
    is attached*, the cached bounding box equals a fresh `measure_label` of the
    current state" is preserved by every operation; and directly after any
    successful `show`, the cached box matches a fresh measurement whatever the
    display argument was. -/
theorem size_invariant_preserved_and_roundtrip :
    (∀ (face : Face) (op : LabelOp) (s s' : Label),
        size_invariant face s → apply_op face op s = some s' →
        size_invariant face s') ∧
    (∀ (face : Face) (s : Label) (d : Bool) (x y : Int) (out : Label × Option Rect),
        show_control face s d x y = some out → box_matches face out.1) := by
  constructor
  · intro face op s s' hinv happ
    cases op with
    | showOp d x y =>
      simp only [apply_op] at happ
      obtain ⟨out, hout, rfl⟩ := Option.map_eq_some'.mp happ
      intro _ _
      exact show_control_box_matches face s d x y out hout
    | hideOp =>
      simp only [apply_op] at happ
      obtain rfl := (Option.some_inj.mp happ).symm
      intro hv _
      simp [hide_control] at hv
    | setTextOp t =>
      simp only [apply_op] at happ
      cases hst : s.text with
      | none =>
        cases t with
        | none =>
          simp only [set_text_for_control, hst, Option.map_some'] at happ
          obtain rfl := (Option.some_inj.mp happ).symm
          exact hinv
        | some str =>
          simp only [set_text_for_control, hst] at happ
          obtain ⟨out, hout, rfl⟩ := Option.map_eq_some'.mp happ
          exact trigger_redraw_adjust_invariant face _ out hout
      | some old =>
        cases t with
        | none =>
          simp only [set_text_for_control, hst, Option.map_none'] at happ
          cases happ
        | some str =>
          simp only [set_text_for_control, hst] at happ
          obtain ⟨out, hout, rfl⟩ := Option.map_eq_some'.mp happ
          exact trigger_redraw_adjust_invariant face _ out hout
    | setAlignmentOp a =>
      simp only [apply_op, set_alignment_for_control] at happ
      by_cases hch : s.alignment ≠ a
      · rw [if_pos hch] at happ
        obtain ⟨out, hout, rfl⟩ := Option.map_eq_some'.mp happ
        exact trigger_redraw_adjust_invariant face _ out hout
      · rw [if_neg hch] at happ
        obtain ⟨out, hout, rfl⟩ := Option.map_eq_some'.mp happ
        obtain rfl := (Option.some_inj.mp hout).symm
        exact hinv
    | setWidthOp w =>
      simp only [apply_op, set_width_for_control] at happ
      by_cases hch : s.width ≠ w
      · rw [if_pos hch] at happ
        obtain ⟨out, hout, rfl⟩ := Option.map_eq_some'.mp happ
        exact trigger_redraw_adjust_invariant face _ out hout
      · rw [if_neg hch] at happ
        obtain ⟨out, hout, rfl⟩ := Option.map_eq_some'.mp happ
        obtain rfl := (Option.some_inj.mp hout).symm
        exact hinv
    | setFontOp fontdesc =>
      simp only [apply_op, set_font_for_control] at happ
      obtain ⟨out, hout, rfl⟩ := Option.map_eq_some'.mp happ
      exact trigger_redraw_adjust_invariant face _ out hout
    | setColorOp r g b a =>
      simp only [apply_op, set_color_for_control] at happ
      obtain ⟨out, hout, rfl⟩ := Option.map_eq_some'.mp happ
      obtain heq := trigger_redraw_noadjust_state face _ out hout
      rw [heq]
      intro hv hd
      exact hinv hv hd
    | drawOp =>
      simp only [apply_op] at happ
      obtain rfl := (Option.some_inj.mp happ).symm
      exact hinv
  · intro face s d x y out h
    exact show_control_box_matches face s d x y out h

/-- A freshly created label (hidden, no display, no text, width -1). -/
def sC9₀ : Label :=
  { display := false, area := { x := 0, y := 0, width := 0, height := 0 },
    alignment := alignLeft, width := -1, faceSize := szDefault,
    text := none, red := 1, green := 1, blue := 1, alpha := 1,
    is_hidden := true }

/-- `sC9₀` after `show (NULL, 0, 0)`: visible, no display attached. -/
def sC9₁ : Label := { sC9₀ with is_hidden := false }

/-- `sC9₁` after `set_text ("a")`: the text changed but, with no display
    attached, `trigger_redraw` returned before `size_control`. -/
def sC9₂ : Label := { sC9₁ with text := some ['a'] }

/-- C9 (counterexample): `show` with a null display then `set_text` leaves a
    *visible* label whose cached box (0×0) no longer matches the measurement
    of its current state (1×1): the invariant as claimed fails, because
    `trigger_redraw` skips the recomputation when no display is attached. -/
theorem invariant_fails_after_set_text_without_display :
    apply_op f₀ (LabelOp.showOp false 0 0) sC9₀ = some sC9₁ ∧
    apply_op f₀ (LabelOp.setTextOp (some ['a'])) sC9₁ = some sC9₂ ∧
    sC9₂.is_hidden = false ∧
    measure_label (f₀.glyph sC9₂.faceSize) (f₀.metrics sC9₂.faceSize) sC9₂.text sC9₂.width
      = some (1, 1) ∧
    (sC9₂.area.width, sC9₂.area.height) = (0, 0) ∧
    ((1 : Nat), (1 : Nat)) ≠ ((0 : Nat), (0 : Nat)) := by
  refine ⟨by decide, by decide, by decide, by decide, by decide, by decide⟩

/-- C9 (witness): the preservation theorem applied to a concrete
    `set_color` step from a state satisfying the invariant. -/
theorem size_invariant_preserved_and_roundtrip_witness :
    size_invariant f₀ sC9₁ ∧
    apply_op f₀ (LabelOp.setColorOp 0 0 0 1) sC9₁
      = some { sC9₁ with red := 0, green := 0, blue := 0, alpha := 1 } ∧
    size_invariant f₀ { sC9₁ with red := 0, green := 0, blue := 0, alpha := 1 } :=
  have hinv : size_invariant f₀ sC9₁ := fun _ hd => absurd hd (by decide)
  have happ : apply_op f₀ (LabelOp.setColorOp 0 0 0 1) sC9₁
      = some { sC9₁ with red := 0, green := 0, blue := 0, alpha := 1 } := by decide
  ⟨hinv, happ,
   (size_invariant_preserved_and_roundtrip).1 f₀ (LabelOp.setColorOp 0 0 0 1) sC9₁ _ hinv happ⟩

/-- C `float` to `uint8_t` conversion for the blend results.  C truncates
    toward zero; at the nonnegative in-range values the blends produce this
    equals the floor, and conversions outside [0, 256) are undefined behaviour
    in C (the spec's "wraparound artifacts"), modelled here as mod 256. -/
def fToU8 (v : ℚ) : Nat := (Int.floor v).toNat % 256

/-- The body of `draw_bitmap`'s inner loop for one destination pixel:
    `alpha = label->alpha * (coverage / 255.0f)`, blend each of R, G, B as
    `inv*dst + alpha*src`, and replace the destination alpha byte by
    `alpha * 255`.  `rs`, `gs`, `bs` are the precomputed source channel bytes
    (`255 * label->{red,green,blue}` truncated to `uint8_t`); the C float
    arithmetic is modelled by exact rationals, which agrees with 32-bit floats
    at the inputs the theorems exercise (alpha 0 or 1, coverage 0 or 255). -/
def blend_pixel (alphaLabel : ℚ) (rs gs bs : Nat) (cov : Nat) (dest : Nat) : Nat :=
  let alpha : ℚ := alphaLabel * ((cov : ℚ) / 255)
  let invalpha : ℚ := 1 - alpha
  let rd : Nat := dest / 2 ^ 16 % 256
  let gd : Nat := dest / 2 ^ 8 % 256
  let bd : Nat := dest % 256
  let rd' := fToU8 (invalpha * (rd : ℚ) + alpha * (rs : ℚ))
  let gd' := fToU8 (invalpha * (gd : ℚ) + alpha * (gs : ℚ))
  let bd' := fToU8 (invalpha * (bd : ℚ) + alpha * (bs : ℚ))
  let ad := fToU8 (alpha * 255)
  ad * 2 ^ 24 + rd' * 2 ^ 16 + gd' * 2 ^ 8 + bd'

/-- `draw_bitmap`: clamp the end bounds to the target, skip entirely when the
    start is already outside the target under the `uint32_t` casts, then blend
    every covered pixel.  Row-major target indexing `x + width * y`; the
    glyph's coverage buffer is indexed `xs + pitch * ys`. -/
def draw_bitmap (red green blue alpha : ℚ) (buf : Buffer) (src : Glyph)
    (x_start y_start : Int) : Buffer :=
  let x_end : Int := min (x_start + (src.bmWidth : Int)) ((buf.width : Int))
  let y_end : Int := min (y_start + (src.bmRows : Int)) ((buf.height : Int))
  if toU32 x_start ≥ buf.width ∨ toU32 y_start ≥ buf.height then buf
  else
    let rs := fToU8 (255 * red)
    let gs := fToU8 (255 * green)
    let bs := fToU8 (255 * blue)
    let rows := (y_end - y_start).toNat
    let cols := (x_end - x_start).toNat
    (List.range rows).foldl (fun b (ys : Nat) =>
      (List.range cols).foldl (fun b2 (xs : Nat) =>
        let xi := x_start + (xs : Int)
        let yi := y_start + (ys : Int)
        let cov := src.bmBuffer.getD (xs + src.bmPitch * ys) 0
        let idx := (xi + (buf.width : Int) * yi).toNat
        let dest := b2.data.getD idx 0
        { b2 with data := b2.data.set idx (blend_pixel alpha rs gs bs cov dest) }) b) buf

/-- The inner character loop of `draw_control`, one fuel unit per iteration.
    On a glyph-load failure the C code executes `continue`, which re-tests the
    loop condition *without* advancing `cur_c`, so the same character is
    reloaded forever; success draws the bitmap at the pen (a negative left
    bearing becomes extra advance instead of a position offset) and advances
    the pen.  Returns the leftover text (at the newline or the end), the pen,
    and the updated buffer. -/
def draw_line_fuel (gf : Char → Option Glyph) (red green blue alpha : ℚ) :
    Nat → List Char → Int → Int → Buffer → Option (List Char × Int × Int × Buffer)
  | _, [], penx, peny, buf => some ([], penx, peny, buf)
  | fuel, c :: cs, penx, peny, buf =>
    if c = '\n' then some (c :: cs, penx, peny, buf)
    else
      match fuel with
      | 0 => none
      | fuel' + 1 =>
        match gf c with
        | none => draw_line_fuel gf red green blue alpha fuel' (c :: cs) penx peny buf
        | some gl =>
          let extraAdvance : Int := if gl.bitmapLeft < 0 then -gl.bitmapLeft else 0
          let positiveBearingX : Int := if gl.bitmapLeft < 0 then 0 else gl.bitmapLeft
          let buf' := draw_bitmap red green blue alpha buf gl
            (ftTrunc penx + positiveBearingX) (ftTrunc peny - gl.bitmapTop)
          draw_line_fuel gf red green blue alpha fuel' cs
            (penx + gl.advanceX + extraAdvance) (peny + gl.advanceY) buf'

/-- The outer line loop of `draw_control`, one fuel unit per line.  Per line:
    reset the pen x to `area.x << 6`, add the alignment offset (which calls
    `width_of_line` for CENTER and RIGHT; its `unsigned long` arithmetic and
    the addition to the signed pen collapse to one final two's-complement
    wrap), draw the characters, skip the newline, and add the face line
    height to the pen y.  The inner loop gets fuel `cs.length`, which is
    exact for it (see `width_of_line`); `none` means some glyph loop never
    returned (or the outer fuel ran out, which cannot happen from
    `draw_control`'s `cs.length + 1`). -/
def draw_lines_fuel (gf : Char → Option Glyph) (m : Metrics) (s : Label) :
    Nat → List Char → Int → Buffer → Option Buffer
  | _, [], _, buf => some buf
  | 0, _ :: _, _, _ => none
  | fuel + 1, c :: cs, peny, buf =>
    let penx0 : Int := s.area.x * 64
    match
      (if s.alignment = alignCenter then
        (width_of_line gf (c :: cs)).map
          (fun wl => wrap64 (penx0 + ((s.area.width : Int) - wl) * 32))
      else if s.alignment = alignRight then
        (width_of_line gf (c :: cs)).map
          (fun wl => wrap64 (penx0 + ((s.area.width : Int) - wl) * 64))
      else some penx0) with
    | none => none
    | some penx =>
      match draw_line_fuel gf s.red s.green s.blue s.alpha (c :: cs).length
          (c :: cs) penx peny buf with
      | none => none
      | some (leftover, _, peny', buf') =>
        match leftover with
        | [] => draw_lines_fuel gf m s fuel [] (peny' + m.height) buf'
        | _ :: rest => draw_lines_fuel gf m s fuel rest (peny' + m.height) buf'

/-- `draw_control`: no-op when hidden; no-op when the bounding box fails the
    strict-inequality overlap test against the clip rectangle; fetch the
    target and bail out on a zero-height buffer; then start the pen at
    `(area.x << 6, (area.y << 6) + ascender)` and draw the lines.  A null
    text pointer is dereferenced by the loop condition (undefined behaviour,
    `none`); this happens after the early returns. -/
def draw_control (face : Face) (s : Label) (buf : Buffer)
    (x y : Int) (w h : Nat) : Option Buffer :=
  if s.is_hidden = true then some buf
  else if s.area.x > x + (w : Int) ∨ s.area.y > y + (h : Int)
      ∨ s.area.x + (s.area.width : Int) < x
      ∨ s.area.y + (s.area.height : Int) < y then some buf
  else if buf.height = 0 then some buf
  else
    match s.text with
    | none => none
    | some cs =>
      draw_lines_fuel (face.glyph s.faceSize) (face.metrics s.faceSize) s
        (cs.length + 1) cs ((s.area.y * 64) + (face.metrics s.faceSize).ascender) buf

/-- C2 (code_bug): with the glyph for 'a' failing to load, the `continue` in
    `draw_control`'s character loop re-tests the loop condition *without*
    advancing `cur_c`, so the loop never returns, whatever the fuel: the
    character is not skipped and drawing never reaches the next character. -/
theorem draw_control_inner_loop_diverges_on_failing_glyph :
    ∀ (red green blue alpha : ℚ) (fuel : Nat) (penx peny : Int) (buf : Buffer),
      draw_line_fuel g_none red green blue alpha fuel ('a' :: []) penx peny buf = none := by
  intro red green blue alpha fuel
  induction fuel with
  | zero =>
    intro penx peny buf
    simp only [draw_line_fuel]
    rw [if_neg (by decide)]
  | succ fuel ih =>
    intro penx peny buf
    simp only [draw_line_fuel]
    rw [if_neg (by decide)]
    exact ih penx peny buf

/-- The label's box and the half-open clip rectangle
    `[x, x+w) × [y, y+h)` do not intersect. -/
def half_open_disjoint (r : Rect) (x y : Int) (w h : Nat) : Prop :=
  x + (w : Int) ≤ r.x ∨ r.x + (r.width : Int) ≤ x
    ∨ y + (h : Int) ≤ r.y ∨ r.y + (r.height : Int) ≤ y

instance (r : Rect) (x y : Int) (w h : Nat) : Decidable (half_open_disjoint r x y w h) := by
  unfold half_open_disjoint
  infer_instance

/-- C5 (amended): `draw_control` writes nothing when the label is hidden, or
    the target buffer has zero height, or the bounding box fails the code's
    strict-inequality overlap test (the *closed* boxes are disjoint:
    `area.x > x+w ∨ area.y > y+h ∨ area.x+area.width < x ∨
    area.y+area.height < y`).  A clip rectangle that merely touches the box's
    edge passes this test and triggers a full redraw, so half-open
    disjointness is not sufficient for a no-op. -/
theorem draw_control_no_writes_when_hidden_or_empty_or_rejected
    (face : Face) (s : Label) (buf : Buffer) (x y : Int) (w h : Nat)
    (hcond : s.is_hidden = true ∨ buf.height = 0
      ∨ s.area.x > x + (w : Int) ∨ s.area.y > y + (h : Int)
      ∨ s.area.x + (s.area.width : Int) < x
      ∨ s.area.y + (s.area.height : Int) < y) :
    draw_control face s buf x y w h = some buf := by
  unfold draw_control
  by_cases h1 : s.is_hidden = true
  · rw [if_pos h1]
  · rw [if_neg h1]
    by_cases h2 : s.area.x > x + (w : Int) ∨ s.area.y > y + (h : Int)
        ∨ s.area.x + (s.area.width : Int) < x ∨ s.area.y + (s.area.height : Int) < y
    · rw [if_pos h2]
    · rw [if_neg h2]
      have h3 : buf.height = 0 := by
        rcases hcond with hc | hc | hc | hc | hc | hc
        · exact absurd hc h1
        · exact hc
        · exact absurd (Or.inl hc) h2
        · exact absurd (Or.inr (Or.inl hc)) h2
        · exact absurd (Or.inr (Or.inr (Or.inl hc))) h2
        · exact absurd (Or.inr (Or.inr (Or.inr hc))) h2
      rw [if_pos h3]

/-- C5 (witness): the amended theorem evaluated on a hidden label. -/
theorem draw_control_no_writes_witness :
    (sC4.is_hidden = true ∨ ({ width := 2, height := 1, data := [0, 0] } : Buffer).height = 0
      ∨ sC4.area.x > 0 + ((5 : Nat) : Int) ∨ sC4.area.y > 0 + ((5 : Nat) : Int)
      ∨ sC4.area.x + (sC4.area.width : Int) < 0
      ∨ sC4.area.y + (sC4.area.height : Int) < 0) ∧
    draw_control f₀ sC4 { width := 2, height := 1, data := [0, 0] } 0 0 5 5
      = some { width := 2, height := 1, data := [0, 0] } :=
  ⟨by decide,
   draw_control_no_writes_when_hidden_or_empty_or_rejected f₀ sC4
     { width := 2, height := 1, data := [0, 0] } 0 0 5 5 (by decide)⟩

/-- The concrete visible label used to exhibit C5: a one-pixel box at the
    origin with the one-character text "a". -/
def sC5 : Label :=
  { display := true, area := { x := 0, y := 0, width := 1, height := 1 },
    alignment := alignLeft, width := -1, faceSize := szDefault,
    text := some ['a'], red := 1, green := 1, blue := 1, alpha := 1,
    is_hidden := false }

def buf₀ : Buffer := { width := 2, height := 1, data := [0, 0] }

/-- `buf₀` after `draw_control` renders `sC5` into it: pixel 0 becomes opaque
    white. -/
def bufC5 : Buffer := { width := 2, height := 1, data := [4294967295, 0] }

/-- C5 (counterexample): the clip rectangle `[1,2) × [0,1)` is disjoint from
    the box `[0,1) × [0,1)` under half-open semantics (it only touches the
    box's right edge), yet `draw_control` proceeds — the overlap test uses
    strict inequalities — and writes pixel 0 of the buffer. -/
theorem draw_control_writes_on_edge_touching_clip :
    half_open_disjoint sC5.area 1 0 1 1 ∧
    draw_control f₀ sC5 buf₀ 1 0 1 1 = some bufC5 ∧
    bufC5.data ≠ buf₀.data := by
  refine ⟨by decide, ?_, by decide⟩
  have h1 : ftTrunc 0 = 0 := by decide
  have h2 : ftTrunc 64 = 1 := by decide
  have hrs : fToU8 (255 * (1 : ℚ)) = 255 := by unfold fToU8; norm_num; decide
  have hrs' : fToU8 ((255 : ℚ)) = 255 := by unfold fToU8; norm_num; decide
  have hblend : blend_pixel 1 255 255 255 255 0 = 4294967295 := by
    unfold blend_pixel fToU8; norm_num; decide
  simp [draw_control, draw_lines_fuel, draw_line_fuel, draw_bitmap, sC5, buf₀, bufC5,
    gl₀, f₀, m₀, szDefault, alignLeft, alignCenter, alignRight, h1, h2, hrs, hrs', hblend,
    toU32, List.range_succ]

theorem fToU8_natCast (n : Nat) : fToU8 (n : ℚ) = n % 256 := by
  unfold fToU8
  rw [Int.floor_natCast]
  simp

theorem fToU8_lt (v : ℚ) : fToU8 v < 256 := by
  unfold fToU8
  exact Nat.mod_lt _ (by norm_num)

/-- C6 (counterexample): blending a fully transparent contribution (coverage
    0, so effective source alpha 0) over a destination pixel whose alpha byte
    is 255 (0xFF000000) yields 0x00000000: the RGB bytes survive but the alpha
    byte is zeroed, so the destination is *not* left bit-for-bit unchanged. -/
theorem blend_pixel_zero_alpha_clobbers_dest_alpha :
    (1 : ℚ) * (((0 : Nat) : ℚ) / 255) = 0 ∧
    blend_pixel 1 255 255 255 0 4278190080 = 0 ∧
    (0 : Nat) ≠ 4278190080 := by
  refine ⟨by norm_num, ?_, by decide⟩
  unfold blend_pixel fToU8
  norm_num

/-- C6 (amended): blending with effective source alpha 0 leaves the RGB bytes
    of the destination unchanged but replaces the alpha byte by 0 (the result
    is `dest % 2^24`); blending with label alpha 1 over full coverage 255 sets
    the pixel exactly to the label's color channels scaled by 255 with output
    alpha 255; and in every blend the previous destination alpha is discarded
    — the result depends only on `dest % 2^24` — and the output alpha byte is
    `src_alpha * 255` (truncated to a byte). -/
theorem blend_pixel_blend_properties :
    (∀ (al : ℚ) (rs gs bs cov dest : Nat),
        al * ((cov : ℚ) / 255) = 0 →
        blend_pixel al rs gs bs cov dest = dest % 2 ^ 24) ∧
    (∀ (r g b : ℚ) (dest : Nat),
        blend_pixel 1 (fToU8 (255 * r)) (fToU8 (255 * g)) (fToU8 (255 * b)) 255 dest
          = 255 * 2 ^ 24 + fToU8 (255 * r) * 2 ^ 16 + fToU8 (255 * g) * 2 ^ 8
            + fToU8 (255 * b)) ∧
    (∀ (al : ℚ) (rs gs bs cov d₁ d₂ : Nat),
        d₁ % 2 ^ 24 = d₂ % 2 ^ 24 →
        blend_pixel al rs gs bs cov d₁ = blend_pixel al rs gs bs cov d₂) ∧
    (∀ (al : ℚ) (rs gs bs cov dest : Nat),
        blend_pixel al rs gs bs cov dest / 2 ^ 24
          = fToU8 (al * ((cov : ℚ) / 255) * 255)) := by
  refine ⟨?_, ?_, ?_, ?_⟩
  · intro al rs gs bs cov dest hz
    simp only [blend_pixel, hz, sub_zero, one_mul, zero_mul, add_zero, mul_zero]
    rw [fToU8_natCast, fToU8_natCast, fToU8_natCast]
    have had : fToU8 0 = 0 := by unfold fToU8; norm_num
    rw [had]
    omega
  · intro r g b dest
    have hful : ((255 : Nat) : ℚ) / 255 = 1 := by norm_num
    simp only [blend_pixel, hful, mul_one, sub_self, zero_mul, one_mul, zero_add]
    rw [fToU8_natCast, fToU8_natCast, fToU8_natCast]
    have h255 : fToU8 ((255 : ℚ)) = 255 := by unfold fToU8; norm_num; decide
    rw [h255]
    have hr := fToU8_lt (255 * r)
    have hg := fToU8_lt (255 * g)
    have hb := fToU8_lt (255 * b)
    omega
  · intro al rs gs bs cov d₁ d₂ hd
    have h16 : d₁ / 2 ^ 16 % 256 = d₂ / 2 ^ 16 % 256 := by omega
    have h8 : d₁ / 2 ^ 8 % 256 = d₂ / 2 ^ 8 % 256 := by omega
    have h0 : d₁ % 256 = d₂ % 256 := by omega
    simp only [blend_pixel, h16, h8, h0]
  · intro al rs gs bs cov dest
    simp only [blend_pixel]
    have hr := fToU8_lt ((1 - al * ((cov : ℚ) / 255)) * (dest / 2 ^ 16 % 256 : Nat)
      + al * ((cov : ℚ) / 255) * (rs : ℚ))
    have hg := fToU8_lt ((1 - al * ((cov : ℚ) / 255)) * (dest / 2 ^ 8 % 256 : Nat)
      + al * ((cov : ℚ) / 255) * (gs : ℚ))
    have hb := fToU8_lt ((1 - al * ((cov : ℚ) / 255)) * (dest % 256 : Nat)
      + al * ((cov : ℚ) / 255) * (bs : ℚ))
    omega

/-- C6 (witness): the amended theorem's zero-alpha part evaluated at coverage
    0 over an opaque black destination pixel. -/
theorem blend_pixel_blend_properties_witness :
    (1 : ℚ) * (((0 : Nat) : ℚ) / 255) = 0 ∧
    blend_pixel 1 255 255 255 0 4278190080 = 4278190080 % 2 ^ 24 :=
  have hz : (1 : ℚ) * (((0 : Nat) : ℚ) / 255) = 0 := by norm_num
  ⟨hz, blend_pixel_blend_properties.1 1 255 255 255 0 4278190080 hz⟩
